import Mathlib

set_option maxRecDepth 4000

/-!
Verification development for the MicroVisionAI orchestration core.

The Python sources under app/services and app/routes are shallowly embedded
here.  Strings are modelled as lists of characters (`Str`); Python string
methods (strip, replace, split, startswith, os.path.join, pathlib
normalization, werkzeug secure_filename) are reimplemented faithfully on that
representation.  External effects (the ImageJ engine, the filesystem, the
Anthropic streaming backend, client disconnects) are modelled as explicit
oracle values passed to the embedded functions, so that every embedded
function is a pure, executable Lean definition.
-/

/-- Strings are modelled as lists of characters. -/
abbrev Str := List Char

/-- Converts a Lean string literal into the character-list representation. -/
def str (s : String) : Str := s.data

/-- Boolean test that `pat` is a leading chunk of `s`; models Python
`s.startswith(pat)` and the matching step of `str.replace`. -/
def startsList {α : Type} [DecidableEq α] : List α → List α → Bool
  | [], _ => true
  | _ :: _, [] => false
  | p :: ps, c :: cs => p = c && startsList ps cs

/-- Boolean substring test; models Python `pat in s`. -/
def containsSubCore (pat : Str) : Str → Bool
  | [] => startsList pat []
  | c :: rest => startsList pat (c :: rest) || containsSubCore pat rest

/-- Python whitespace characters, as used by `str.strip()` and `str.split()`. -/
def pyIsSpace (c : Char) : Bool :=
  c = ' ' || c = '\t' || c = '\n' || c = '\r' || c = '\x0b' || c = '\x0c'

/-- Models Python `s.strip()`: drop whitespace from both ends. -/
def stripCore (l : Str) : Str :=
  ((l.dropWhile pyIsSpace).reverse.dropWhile pyIsSpace).reverse

/-- Models Python `s.strip(chars)`: drop the given characters from both ends. -/
def stripCharsCore (cs : Str) (l : Str) : Str :=
  ((l.dropWhile cs.contains).reverse.dropWhile cs.contains).reverse

/-- Scanner of Python `str.replace`: when the skip counter is zero and the
pattern matches at the current position, emit the replacement and skip the
rest of the match (counter), never rescanning the replacement; otherwise
keep the character. -/
def replAux (pat rep : Str) : Nat → Str → Str
  | _, [] => []
  | 0, c :: rest =>
    if pat ≠ [] ∧ startsList pat (c :: rest) then
      rep ++ replAux pat rep (pat.length - 1) rest
    else
      c :: replAux pat rep 0 rest
  | k + 1, _ :: rest => replAux pat rep k rest

/-- Models Python `s.replace(pat, rep)` for a non-empty pattern: scan left to
right, replace non-overlapping occurrences, never rescan the replacement. -/
def pyReplaceCore (pat rep : Str) (l : Str) : Str := replAux pat rep 0 l

/-- Erasure of every occurrence of a non-empty pattern; models Python
`s.replace(pat, "")`. -/
def eraseSub (pat : Str) (l : Str) : Str := pyReplaceCore pat [] l

/-- Pushes a character onto the first chunk of a chunk list (helper of
`splitChar`). -/
def consHead (c : Char) : List Str → List Str
  | [] => [[c]]
  | l :: ls => (c :: l) :: ls

/-- Models Python `s.split(sep)` for a one-character separator: empty chunks
are kept, and the empty string splits into one empty chunk. -/
def splitChar (sep : Char) : Str → List Str
  | [] => [[]]
  | c :: rest => if c = sep then [] :: splitChar sep rest else consHead c (splitChar sep rest)

/-- Models `"\n".join(lines)`. -/
def joinNL : List Str → Str
  | [] => []
  | [l] => l
  | l :: l2 :: ls => l ++ '\n' :: joinNL (l2 :: ls)

/-- Models Python `s.split()` (split on whitespace runs, dropping empties). -/
def splitWsCore : Str → List Str
  | [] => []
  | c :: rest =>
    if pyIsSpace c then splitWsCore rest
    else consHead c (match rest with
      | [] => [[]]
      | d :: _ => if pyIsSpace d then [] :: splitWsCore rest else splitWsCore rest)

/-- Concatenation of a list of strings (helper for stating theorems about
accumulated stream content). -/
def concatL : List Str → Str
  | [] => []
  | d :: ds => d ++ concatL ds

/-! ### SectionParser: app/services/atlas_service.py -/

/-- Events yielded by `generate_macro_from_prompt`
(atlas_service.py lines 87-130). -/
inductive SEvent : Type
  | section_change (sectionName content : Str)
  | message (content sectionName : Str)
  | complete (msg : Str)
  | error (msg : Str)
deriving DecidableEq, Repr

/-- atlas_service.handle_section_transition (lines 133-150): a delta triggers
a transition when it contains the description marker, or a code fence while
the current section is description, or the explanation marker. -/
def handle_section_transition (content current_section : Str) : Bool :=
  if containsSubCore (str "[DESCRIPTION]") content then true
  else if containsSubCore (str "```") content && current_section = str "description" then true
  else if containsSubCore (str "[EXPLANATION]") content then true
  else false

/-- The cyclic section order of atlas_service.get_next_section (line 162). -/
def sectionsList : List Str := [str "description", str "macro_script", str "explanation"]

/-- atlas_service.get_next_section (lines 152-164): advance cyclically in
`sectionsList`. -/
def get_next_section (current_section : Str) : Str :=
  (sectionsList.getD ((sectionsList.indexOf current_section + 1) % sectionsList.length) [])

/-- The comment-prepending step of clean_section_content (atlas_service.py
lines 207-210): when the first non-blank line is not already a comment,
insert the synthetic comment line at the front. -/
def scriptLines (cleaned : List Str) : List Str :=
  match cleaned with
  | [] => []
  | l0 :: rest =>
    if startsList (str "//") (stripCore l0) then l0 :: rest
    else (str "// Generated ImageJ Macro") :: l0 :: rest

/-- atlas_service.clean_section_content (lines 186-214): strip the section
markers and surrounding whitespace; for the script section also erase the
code-fence delimiters, drop blank lines, and prepend a synthetic comment line
when the first remaining line is not already a comment. -/
def clean_section_content (sectionName content : Str) : Str :=
  let content1 := stripCore (eraseSub (str "[EXPLANATION]") (eraseSub (str "[DESCRIPTION]") content))
  if sectionName = str "macro_script" then
    let content2 := eraseSub (str "```") (eraseSub (str "```javascript") content1)
    let cleaned := (splitChar '\n' content2).filter (fun l => !(stripCore l).isEmpty)
    joinNL (scriptLines cleaned)
  else stripCore content1

/-- atlas_service.process_section_change (lines 166-184): the single
section_change event carrying the cleaned, stripped content. -/
def process_section_change (current_section content : Str) : List SEvent :=
  [SEvent.section_change current_section (stripCore (clean_section_content current_section content))]

/-- One iteration of the delta loop of generate_macro_from_prompt
(lines 95-112): append the delta, then either emit the section_change for the
section that just ended and reset, or emit a message event. -/
def macroStep (st : Str × Str) (delta : Str) : (Str × Str) × List SEvent :=
  let acc2 := st.2 ++ delta
  if handle_section_transition delta st.1 then
    ((get_next_section st.1, []), process_section_change st.1 acc2)
  else
    ((st.1, acc2), [SEvent.message delta st.1])

/-- The delta loop of generate_macro_from_prompt run over a whole delta
sequence, returning the final (section, accumulated content) state and the
events emitted. -/
def macroSteps : (Str × Str) → List Str → (Str × Str) × List SEvent
  | st, [] => (st, [])
  | st, d :: ds =>
    let r1 := macroStep st d
    let r2 := macroSteps r1.1 ds
    (r2.1, r1.2 ++ r2.2)

/-- Oracle for the streaming completion backend as seen by
generate_macro_from_prompt: `openErr` is an exception raised while opening
the stream (before any event is yielded), `deltas` are the text deltas
received, and `midErr` is an exception raised when requesting the next delta
after `deltas`. -/
structure Upstream : Type where
  openErr : Option Str
  deltas : List Str
  midErr : Option Str

/-- The message of the HTTPException raised by generate_macro_from_prompt
after it yields its error event (line 131); str() of a starlette
HTTPException is "status_code: detail". -/
def genFailS : Str := str "500: Failed to generate macro script"

/-- atlas_service.generate_macro_from_prompt (lines 56-131) as a function of
the upstream oracle: the list of events yielded, paired with the message of
the exception the generator raises after its last yield (if any).  The
initial section_change with empty description content (lines 87-93) precedes
the delta loop; on success a final section_change flushes leftover content
and a complete event closes the stream; on an upstream exception the except
block yields one error event and then raises HTTPException. -/
def generate_macro_from_prompt (u : Upstream) : List SEvent × Option Str :=
  match u.openErr with
  | some e => ([SEvent.error e], some genFailS)
  | none =>
    let initEv := SEvent.section_change (str "description") []
    let r := macroSteps (str "description", []) u.deltas
    match u.midErr with
    | some e => (initEv :: r.2 ++ [SEvent.error e], some genFailS)
    | none =>
      let finEvs :=
        if r.1.2 = [] then []
        else [SEvent.section_change r.1.1 (clean_section_content r.1.1 (stripCore r.1.2))]
      (initEv :: r.2 ++ finEvs ++ [SEvent.complete (str "Macro generation complete")], none)

/-- Projection used to state claims about section_change events. -/
def getSC : SEvent → Option (Str × Str)
  | SEvent.section_change s c => some (s, c)
  | _ => none

/-! ### StreamTransport: app/routes/chat_routes.py -/

/-- The JSON envelope produced by chat_routes.format_event (line 19): an
event kind plus a payload of key-value pairs. -/
structure WireEvent : Type where
  event : Str
  data : List (Str × Str)
deriving DecidableEq, Repr

/-- Framing of a parser event by macro_stream via format_event; the JSON
encoding itself is abstracted, the kind and payload fields are preserved. -/
def frame : SEvent → WireEvent
  | SEvent.section_change s c => ⟨str "section_change", [(str "section", s), (str "content", c)]⟩
  | SEvent.message c s => ⟨str "message", [(str "content", c), (str "section", s)]⟩
  | SEvent.complete m => ⟨str "complete", [(str "message", m)]⟩
  | SEvent.error m => ⟨str "error", [(str "error", m)]⟩

/-- An error envelope as framed by the except clause of macro_stream. -/
def errWire (m : Str) : WireEvent := ⟨str "error", [(str "error", m)]⟩

/-- The generation loop of chat_routes.macro_stream (lines 51-59): before
each received event the client connection is checked (`disc i` is true when
`request.is_disconnected()` returns true at the i-th check) and the loop
breaks silently; when the generator raises after its events are exhausted,
the except clause frames one more error event. -/
def streamLoop (disc : Nat → Bool) : Nat → List SEvent → Option Str → List WireEvent
  | _, [], none => []
  | _, [], some m => [errWire m]
  | i, e :: rest, r => if disc i then [] else frame e :: streamLoop disc (i + 1) rest r

/-- Oracle for generate_improved_prompt as consumed by macro_stream:
the chunks yielded before the stream ends, and the upstream failure (if any)
after those chunks, which generate_improved_prompt converts into a raised
HTTPException without yielding an error event itself. -/
structure ImproveUpstream : Type where
  chunks : List Str
  failErr : Option Str

/-- chat_routes.macro_stream (lines 39-59).  With improve_prompt set, the
improvement chunks are forwarded (with no disconnect checks), then the
improvement-complete event; a failure inside generate_improved_prompt, or
the NameError when no chunk was produced, is caught by the outer except and
framed as one error event, ending the stream.  The macro-generation events
then flow through `streamLoop`. -/
def macro_stream (disc : Nat → Bool) (improve : Bool) (ui : ImproveUpstream) (u : Upstream) :
    List WireEvent :=
  let gen := generate_macro_from_prompt u
  let genPart := streamLoop disc 0 gen.1 gen.2
  if improve then
    let chunkEvs := ui.chunks.map (fun c => WireEvent.mk (str "improved_prompt_chunk") [(str "chunk", c)])
    match ui.failErr with
    | some _ => chunkEvs ++ [errWire (str "500: Failed to generate improved prompt")]
    | none =>
      let compEv := WireEvent.mk (str "improved_prompt_complete")
        [(str "message", str "Prompt improvement complete")]
      match ui.chunks with
      | [] => [compEv, errWire (str "name \x27improved_chunk\x27 is not defined")]
      | _ :: _ => chunkEvs ++ compEv :: genPart
  else genPart

/-- A never-disconnecting client. -/
def neverDisc : Nat → Bool := fun _ => false

/-! ### File-readiness waiting: app/services/image_service.py -/

/-- Outcome of ImageService._wait_for_file: normal return, TimeoutError
(file never appeared), or ValueError (file created but empty). -/
inductive WaitRes : Type
  | success
  | timeoutErr
  | emptyErr
deriving DecidableEq, Repr

/-- The existence-polling loop of _wait_for_file (image_service.py lines
102-105), with real time abstracted to poll indices: `existsAt k` is the
os.path.exists observation at the k-th poll and `fuel` is the number of
remaining polls before the timeout deadline.  Returns the poll index at
which the file was first seen, or none on timeout. -/
def waitExists (existsAt : Nat → Bool) : Nat → Nat → Option Nat
  | 0, k => if existsAt k then some k else none
  | fuel + 1, k => if existsAt k then some k else waitExists existsAt fuel (k + 1)

/-- The 10-round size-stability loop of _wait_for_file (lines 108-117):
each round reads the current size; if it is positive and equal to the
previously recorded size the function returns; after the rounds are
exhausted a ValueError is raised only when the last recorded size is zero,
otherwise the function falls through and returns normally. -/
def sizeLoop (sizeAt : Nat → Nat) : Nat → Nat → Nat → WaitRes
  | 0, _, prev => if prev = 0 then WaitRes.emptyErr else WaitRes.success
  | fuel + 1, t, prev =>
    let cur := sizeAt t
    if cur > 0 ∧ cur = prev then WaitRes.success
    else sizeLoop sizeAt fuel (t + 1) cur

/-- ImageService._wait_for_file (image_service.py lines 100-117) over the
observation oracles `existsAt` (existence at each poll) and `sizeAt` (size
at each poll), with `maxPolls` existence polls allowed before the timeout. -/
def wait_for_file (existsAt : Nat → Bool) (sizeAt : Nat → Nat) (maxPolls : Nat) : WaitRes :=
  match waitExists existsAt maxPolls 0 with
  | none => WaitRes.timeoutErr
  | some i => sizeLoop sizeAt 10 i 0

/-! ### Filename sanitization and path helpers -/

/-- Characters kept by werkzeug secure_filename (its _filename_ascii_strip_re
keeps ASCII letters, digits, underscore, dot and hyphen). -/
def allowedFilenameChar (c : Char) : Bool :=
  c.isAlpha || c.isDigit || c = '_' || c = '.' || c = '-'

/-- werkzeug.utils.secure_filename restricted to ASCII input (the NFKD
normalization step is the identity there, and the Windows device-name branch
is not modelled): replace the path separator by a space, split on whitespace
and join with underscores, drop disallowed characters, then strip dots and
underscores from both ends. -/
def secure_filename (filename : Str) : Str :=
  let replaced := filename.map (fun c => if c = '/' then ' ' else c)
  let joined := List.intercalate (str "_") (splitWsCore replaced)
  stripCharsCore (str "._") (joined.filter allowedFilenameChar)

/-- os.path.splitext stem for a bare filename (no path separator, which
holds for every secure_filename result): split at the last dot unless every
character before it is a dot. -/
def splitextStem (p : Str) : Str :=
  match (p.reverse.takeWhile (fun c => c ≠ '.')).length, p.reverse.length with
  | n, m =>
    if n = m then p
    else
      let d := m - n - 1
      if (p.take d).any (fun c => c ≠ '.') then p.take d else p

/-- True when the string ends with a slash. -/
def endsSlash (d : Str) : Bool := startsList (str "/") d.reverse

/-- The directory string with a guaranteed trailing slash. -/
def dirSlash (d : Str) : Str := if endsSlash d then d else d ++ str "/"

/-- os.path.join for two components (POSIX): an absolute second component
replaces the first; otherwise they are joined with exactly one slash. -/
def pyJoin (d n : Str) : Str :=
  if startsList (str "/") n then n
  else if d = [] then n
  else dirSlash d ++ n

/-- The path segments of pathlib lexical normalization: split on slashes and
drop empty and single-dot segments. -/
def pathSegs (p : Str) : List Str :=
  (splitChar '/' p).filter (fun s => !s.isEmpty && s ≠ str ".")

/-- Joins path segments with slashes. -/
def joinSegs (sgs : List Str) : Str := List.intercalate (str "/") sgs

/-- str(pathlib.Path(p)): lexical normalization that collapses duplicate
slashes and drops single-dot segments (the POSIX double-slash-root special
case is not modelled; all concrete paths used below have single slashes). -/
def pyPathNorm (p : Str) : Str :=
  let sg := pathSegs p
  if startsList (str "/") p then '/' :: joinSegs sg
  else if sg = [] then str "." else joinSegs sg

/-- pathlib Path.parent on a normalized path. -/
def parentOf (p : Str) : Str :=
  let sg := (pathSegs p).dropLast
  if startsList (str "/") p then '/' :: joinSegs sg
  else if sg = [] then str "." else joinSegs sg

/-- pathlib Path.relative_to: defined when both paths share the absolute
flag and the base segments lead the path segments; returns the joined
remaining segments (or "." when they are equal).  Raises ValueError
otherwise, modelled as none. -/
def relativeTo (base p : Str) : Option Str :=
  if startsList (str "/") base = startsList (str "/") p then
    let bs := pathSegs base
    let ps := pathSegs p
    if startsList bs ps then
      let r := ps.drop bs.length
      if r.isEmpty then some (str ".") else some (joinSegs r)
    else none
  else none

/-- The basename of a path: everything after the last slash. -/
def baseNameOf (p : Str) : Str := (p.reverse.takeWhile (fun c => c ≠ '/')).reverse

/-- True when `p` lies strictly below directory `d`. -/
def underDir (d p : Str) : Bool := startsList (dirSlash d) p

/-! ### Filesystem oracle and FileService: app/services/file_service.py -/

/-- A filesystem snapshot oracle: the regular files present (with sizes),
the readable text files (as line lists, line terminators stripped), and the
canonicalization performed by pathlib Path.resolve composed with Path
construction (absolutization and symlink resolution), as a function on path
strings. -/
structure FS : Type where
  files : List (Str × Nat)
  contents : List (Str × List Str)
  resolve : Str → Str

/-- os.path.exists / Path.exists on the snapshot. -/
def FS.existsF (fs : FS) (p : Str) : Bool := fs.files.any (fun e => e.1 = p)

/-- Path.stat().st_size on the snapshot (first matching entry). -/
def FS.sizeOf (fs : FS) (p : Str) : Nat :=
  match fs.files.find? (fun e => e.1 = p) with
  | some e => e.2
  | none => 0

/-- The lines of a readable text file on the snapshot. -/
def FS.linesOf (fs : FS) (p : Str) : List Str :=
  match fs.contents.find? (fun e => e.1 = p) with
  | some e => e.2
  | none => []

/-- Set insertion modelling Python set.add, with iteration order fixed to
insertion order (Python set iteration order is unspecified; the claims
concern membership, not order). -/
def insertIfAbsent (x : Str) (l : List Str) : List Str :=
  if x ∈ l then l else l ++ [x]

/-- Accumulates the candidates produced by `g` into a set (helper shared by
the two discovery strategies of parse_saved_files). -/
def foldIns {α : Type} (g : α → Option Str) (l : List α) (acc : List Str) : List Str :=
  l.foldl (fun a x => match g x with | some v => insertIfAbsent v a | none => a) acc

/-- The per-line candidate of parse_saved_files strategy one (file_service.py
lines 138-148): a line starting with the OUTPUT_FILE: tag declares the rest
of the line, stripped, with double slashes collapsed, resolved by pathlib;
it is accepted only if it exists with non-zero size at check time. -/
def lineCand (fs : FS) (line : Str) : Option Str :=
  if startsList (str "OUTPUT_FILE:") line then
    let fp := fs.resolve (pyReplaceCore (str "//") (str "/") (stripCore (line.drop 12)))
    if fs.existsF fp ∧ fs.sizeOf fp > 0 then some fp else none
  else none

/-- The per-file candidate of parse_saved_files strategy two (lines 150-155):
a regular file below the working directory whose basename starts with the
original filename stem, accepted only with non-zero size; the path is added
as enumerated, without canonicalization. -/
def scanCand (fs : FS) (temp_dir original_filename : Str) (e : Str × Nat) : Option Str :=
  if underDir temp_dir e.1 ∧ startsList original_filename (baseNameOf e.1) ∧ fs.sizeOf e.1 > 0 then
    some e.1
  else none

/-- FileService.parse_saved_files (file_service.py lines 115-160): the
`output` argument is accepted but unused by the source; the declared
candidates are read from output_log.txt inside the working directory when it
exists, then the directory scan adds its candidates; the set is returned as
a list.  Directory-scan enumeration order is the order of the snapshot. -/
def parse_saved_files (fs : FS) (output temp_dir original_filename : Str) : List Str :=
  let _ := output
  let logFile := pyJoin temp_dir (str "output_log.txt")
  let afterLog :=
    if fs.existsF logFile then foldIns (lineCand fs) (fs.linesOf logFile) []
    else []
  foldIns (scanCand fs temp_dir original_filename) fs.files afterLog

/-- Sequentially relativizes archive members against the archive parent
directory; any member outside the parent raises ValueError, modelled as
none (helper for stating the create_zip_file characterization). -/
def mapRel (base : Str) : List Str → Option (List Str)
  | [] => some []
  | p :: ps =>
    match relativeTo base p with
    | none => none
    | some a => (mapRel base ps).map (a :: ·)

/-- First-occurrence deduplication relative to an already-seen list (helper
for stating the create_zip_file characterization). -/
def dedupFrom (seen : List Str) : List Str → List Str
  | [] => []
  | x :: xs => if x ∈ seen then dedupFrom seen xs else x :: dedupFrom (x :: seen) xs

/-- The member loop of FileService.create_zip_file (file_service.py lines
82-96): skip entries that no longer exist, skip entries whose string was
already added, and compute each member name relative to the archive parent
(Path.relative_to raises for entries outside it, which the outer except of
create_zip_file turns into a failure).  Returns the member names. -/
def create_zip_members (fs : FS) (zipParent : Str) : List Str → List Str → Option (List Str)
  | [], _ => some []
  | p :: rest, seen =>
    let np := pyPathNorm p
    if fs.existsF np = false then create_zip_members fs zipParent rest seen
    else if np ∈ seen then create_zip_members fs zipParent rest seen
    else
      match relativeTo zipParent np with
      | none => none
      | some arc => (create_zip_members fs zipParent rest (np :: seen)).map (arc :: ·)

/-- FileService.create_zip_file (file_service.py lines 57-113): an empty
path list fails immediately; the member loop writes the archive; success is
reported only when the archive file exists on disk afterwards (the snapshot
models the post-write check); any exception inside the worker is caught and
becomes a failure. -/
def create_zip_file (fs : FS) (file_paths : List Str) (zip_filename : Str) : Option Str :=
  if file_paths.isEmpty then none
  else
    match create_zip_members fs (parentOf (pyPathNorm zip_filename)) file_paths [] with
    | none => none
    | some _ =>
      if fs.existsF (pyPathNorm zip_filename) then some (pyPathNorm zip_filename) else none

/-! ### MacroOrchestrator: app/services/imagej_service.py -/

/-- Python truthiness fallback `a or d` for an optional string (None and the
empty string are falsy). -/
def truthyOr (a : Option Str) (d : Str) : Str :=
  match a with
  | some s => if s = [] then d else s
  | none => d

/-- Oracle for one file of a batch: the upload filename, the exception (if
any) raised by _save_upload_file, the exception (if any) raised inside the
per-file try block (macro preparation or IJ.runMacro), the values returned
by IJ.runMacro and IJ.getLog, and the filesystem snapshot observed by
parse_saved_files after the invocation. -/
structure JobSpec : Type where
  filename : Str
  saveErr : Option Str
  engineErr : Option Str
  runRet : Option Str
  logRet : Option Str
  fsAt : FS

/-- The engine output captured for a job:
`IJ.runMacro(full_macro) or IJ.getLog() or ""`. -/
def jobOutput (j : JobSpec) : Str := truthyOr j.runRet (truthyOr j.logRet [])

/-- The per-job collected outputs (empty when the per-file try block raised,
since parse_saved_files is then never reached). -/
def jobOutputs (temp_dir : Str) (j : JobSpec) : List Str :=
  match j.engineErr with
  | some _ => []
  | none =>
    parse_saved_files j.fsAt (jobOutput j) temp_dir
      (splitextStem (secure_filename j.filename))

/-- The error-log entry recorded for a job whose per-file try block raised
(imagej_service.py lines 187-190), keyed by the sanitized filename. -/
def jobErrEntry (j : JobSpec) : Option Str :=
  j.engineErr.map (fun e => str "Error processing " ++ secure_filename j.filename ++ str ": " ++ e)

/-- The per-file loop of execute_image_macro (ImageJService, imagej_service.py
lines 162-190).  The filename is sanitized and the file persisted before the
try block, so a save failure propagates and aborts the whole loop (modelled
as Except.error); inside the try block an engine failure is recorded in the
error log and the loop continues; otherwise parse_saved_files extends the
output list. -/
def runJobs (temp_dir : Str) : List JobSpec → Except Str (List Str × List Str)
  | [] => Except.ok ([], [])
  | j :: rest =>
    let image_filename := secure_filename j.filename
    let original_filename := splitextStem image_filename
    match j.saveErr with
    | some e => Except.error e
    | none =>
      match runJobs temp_dir rest with
      | Except.error e => Except.error e
      | Except.ok (outs, logs) =>
        match j.engineErr with
        | some e =>
          Except.ok (outs, (str "Error processing " ++ image_filename ++ str ": " ++ e) :: logs)
        | none =>
          let saved := parse_saved_files j.fsAt (jobOutput j) temp_dir original_filename
          Except.ok (saved ++ outs, logs)

/-- Outcome of execute_image_macro: a ZIP path with the error log, an
HTTPException with its detail, or a non-HTTP exception propagating out of
the loop. -/
inductive ExecResult : Type
  | ok (zipPath : Str) (errorLogs : List Str)
  | httpError (detail : Str)
  | raised (msg : Str)
deriving DecidableEq, Repr

/-- The aggregation of execute_image_macro (ImageJService, imagej_service.py lines 129-212),
aggregation part (lines 192-208): when the collected output list is
non-empty one archive is written at results.zip inside the batch working
directory and returned with the error log provided the returned path is
truthy and exists on disk, otherwise an HTTP 500 with "Failed to create zip
file."; when the output list is empty the batch fails with an HTTP 500
carrying "No output files were generated." regardless of the error log.
The unconditional cleanup scheduling in the finally block has no bearing on
the returned value and is not modelled. -/
def execute_image_macro (temp_dir : Str) (jobs : List JobSpec) (aggFS : FS) : ExecResult :=
  match runJobs temp_dir jobs with
  | Except.error e => ExecResult.raised e
  | Except.ok (output_files, error_logs) =>
    if output_files.isEmpty then ExecResult.httpError (str "No output files were generated.")
    else
      match create_zip_file aggFS output_files (pyJoin temp_dir (str "results.zip")) with
      | some zp =>
        if zp ≠ [] ∧ aggFS.existsF zp then ExecResult.ok zp error_logs
        else ExecResult.httpError (str "Failed to create zip file.")
      | none => ExecResult.httpError (str "Failed to create zip file.")

/-- The on-disk working path assigned to a job inside the batch working
directory (imagej_service.py line 165:
`image_path = os.path.join(temp_dir, secure_filename(file.filename))`). -/
def jobWorkingPath (temp_dir : Str) (j : JobSpec) : Str :=
  pyJoin temp_dir (secure_filename j.filename)

/-! ### Concrete scenario inputs used by counterexamples and witnesses -/

/-- A snapshot in which job a produced one output file. -/
def fsOutA : FS := ⟨[(str "/t/a_out.png", 3)], [], fun p => p⟩

/-- An empty snapshot. -/
def fsNone : FS := ⟨[], [], fun p => p⟩

/-- A snapshot in which job c produced one output file. -/
def fsOutC : FS := ⟨[(str "/t/c_out.png", 4)], [], fun p => p⟩

/-- First file of the three-file batch: saves fine, engine succeeds, one
output appears. -/
def jobA : JobSpec := ⟨str "a.png", none, none, some (str "done"), none, fsOutA⟩

/-- Second file variant whose upload persistence raises. -/
def jobBsave : JobSpec := ⟨str "b.png", some (str "disk full"), none, none, none, fsNone⟩

/-- Second file variant whose engine invocation raises. -/
def jobBeng : JobSpec := ⟨str "b.png", none, some (str "Java exception: null"), none, none, fsNone⟩

/-- Third file of the three-file batch: saves fine, engine succeeds, one
output appears. -/
def jobC : JobSpec := ⟨str "c.png", none, none, none, none, fsOutC⟩

/-- The aggregation-time snapshot of the three-file batch: both outputs and
the written archive are on disk. -/
def aggBatch : FS :=
  ⟨[(str "/t/a_out.png", 3), (str "/t/c_out.png", 4), (str "/t/results.zip", 9)], [], fun p => p⟩

/-- A snapshot with a symlink-style alias: the declared path /t/img_out.png
canonicalizes to /real/img_out.png, and the file is visible under both
names; the execution log declares the working-directory name. -/
def fsAlias : FS :=
  ⟨[(str "/t/output_log.txt", 1), (str "/real/img_out.png", 5), (str "/t/img_out.png", 5)],
   [(str "/t/output_log.txt", [str "OUTPUT_FILE:/t/img_out.png"])],
   fun p => if p = str "/t/img_out.png" then str "/real/img_out.png" else p⟩

/-- A snapshot holding only the written archive, used to feed create_zip_file
a list whose single entry is missing from disk. -/
def fsZipOnly : FS := ⟨[(str "/t/results.zip", 9)], [], fun p => p⟩

/-- A size oracle that grows forever: every poll observes a new size. -/
def szGrow : Nat → Nat := fun t => t + 1

/-- An existence oracle for a file that is present from the first poll. -/
def exAlways : Nat → Bool := fun _ => true

/-- Two distinct upload filenames that sanitize to the same name. -/
def jobP1 : JobSpec := ⟨str "a b.png", none, none, none, none, fsNone⟩

/-- Second colliding upload filename. -/
def jobP2 : JobSpec := ⟨str "a_b.png", none, none, none, none, fsNone⟩

/-- A delta sequence containing exactly one description marker, one code
fence and one explanation marker, but in an order the parser does not
expect. -/
def c3deltas : List Str := [str "[EXPLANATION]a", str "b```c", str "[DESCRIPTION]d"]

/-! ## Helper lemmas -/

theorem strSlash : str "/" = ['/'] := rfl

theorem mem_stripCharsCore {c : Char} {cs l : Str} (h : c ∈ stripCharsCore cs l) : c ∈ l := by
  unfold stripCharsCore at h
  rw [List.mem_reverse] at h
  have h2 := (List.dropWhile_sublist _).mem h
  rw [List.mem_reverse] at h2
  exact (List.dropWhile_sublist _).mem h2

theorem sf_allowed {c : Char} {f : Str} (h : c ∈ secure_filename f) :
    allowedFilenameChar c = true := by
  unfold secure_filename at h
  exact (List.mem_filter.mp (mem_stripCharsCore h)).2

theorem sf_noSlash (f : Str) : startsList (str "/") (secure_filename f) = false := by
  cases hsf : secure_filename f with
  | nil => rfl
  | cons c rest =>
    have hmem : c ∈ secure_filename f := by rw [hsf]; exact List.mem_cons_self _ _
    have hall := sf_allowed hmem
    have hne : ¬ ('/' = c) := by
      intro h; rw [← h] at hall; exact absurd hall (by decide)
    rw [strSlash]
    simp [startsList, hne]

/-! ## C10 -/

/-- C10: before consuming any delta, generate_macro_from_prompt emits one
initial section_change event with section description and empty content, so
every stream whose upstream opened successfully begins with this event. -/
theorem c10_theorem (u : Upstream) (h : u.openErr = none) :
    ((generate_macro_from_prompt u).1).head? =
      some (SEvent.section_change (str "description") []) := by
  cases u with
  | mk oe ds me =>
    simp only at h
    subst h
    cases me <;> simp [generate_macro_from_prompt]

/-- Witness for C10 at a concrete one-delta stream. -/
theorem c10_witness :
    ((generate_macro_from_prompt ⟨none, [str "hello"], none⟩).1).head? =
      some (SEvent.section_change (str "description") []) :=
  c10_theorem ⟨none, [str "hello"], none⟩ rfl

/-! ## C9 -/

/-- C9 counterexample: two distinct upload filenames in the same batch are
assigned the same working path, because werkzeug sanitization maps both to
the same name and execute_image_macro does not disambiguate. -/
theorem c9_counterexample :
    jobP1.filename ≠ jobP2.filename ∧
    jobWorkingPath (str "/t") jobP1 = jobWorkingPath (str "/t") jobP2 ∧
    jobWorkingPath (str "/t") jobP1 = str "/t/a_b.png" := by
  refine ⟨by decide, by decide, by decide⟩

/-- C9 amended: a Job's working path is unique per batch only up to
sanitization: whenever two input files have distinct sanitized filenames,
their assigned working paths are distinct; files whose names sanitize
identically collide. -/
theorem c9_theorem (td : Str) (j1 j2 : JobSpec)
    (h : secure_filename j1.filename ≠ secure_filename j2.filename) :
    jobWorkingPath td j1 ≠ jobWorkingPath td j2 := by
  unfold jobWorkingPath pyJoin
  rw [sf_noSlash, sf_noSlash]
  simp only [Bool.false_eq_true, if_false]
  by_cases htd : td = []
  · simp only [htd, if_pos rfl]
    exact h
  · simp only [if_neg htd]
    intro heq
    exact h (List.append_cancel_left heq)

/-- Witness for C9 at two concrete distinct sanitized names. -/
theorem c9_witness :
    jobWorkingPath (str "/t") jobA ≠ jobWorkingPath (str "/t") jobC :=
  c9_theorem (str "/t") jobA jobC (by decide)

/-! ## C8 helper lemmas: erasing code fences leaves no fence behind -/

theorem strTicks : str "```" = ['`', '`', '`'] := rfl

/-- Number of leading backticks of a string. -/
def leadT (l : Str) : Nat := (l.takeWhile (fun c => c == '`')).length

theorem leadT_cons_tick (v : Str) : leadT ('`' :: v) = leadT v + 1 := by
  simp [leadT, List.takeWhile_cons]

theorem leadT_cons_other {c : Char} (v : Str) (h : ¬ c = '`') : leadT (c :: v) = 0 := by
  simp [leadT, List.takeWhile_cons, h]

theorem leadT_ge2 {w : Str} (h : 2 ≤ leadT w) : ∃ v, w = '`' :: '`' :: v := by
  match w with
  | [] => simp [leadT] at h
  | c :: rest =>
    by_cases hc : c = '`'
    · subst hc
      match rest with
      | [] => simp [leadT, List.takeWhile_cons] at h
      | d :: rest2 =>
        by_cases hd : d = '`'
        · subst hd; exact ⟨rest2, rfl⟩
        · rw [leadT_cons_tick, leadT_cons_other _ hd] at h; omega
    · rw [leadT_cons_other _ hc] at h; omega

theorem startsTicks_iff (w : Str) :
    startsList (str "```") w = true ↔ ∃ v, w = '`' :: '`' :: '`' :: v := by
  rw [strTicks]
  constructor
  · intro h
    match w with
    | [] => simp [startsList] at h
    | [a] => simp [startsList] at h
    | [a, b] => simp [startsList] at h
    | a :: b :: c :: v =>
      simp [startsList] at h
      obtain ⟨ha, hb, hc⟩ := h
      exact ⟨v, by rw [← ha, ← hb, ← hc]⟩
  · rintro ⟨v, rfl⟩
    simp [startsList]

theorem eraseT_triple (v : Str) :
    eraseSub (str "```") ('`' :: '`' :: '`' :: v) = eraseSub (str "```") v := by
  show replAux (str "```") [] 0 ('`' :: '`' :: '`' :: v) = replAux (str "```") [] 0 v
  rw [replAux]
  rw [if_pos ⟨by decide, by rw [startsTicks_iff]; exact ⟨v, rfl⟩⟩]
  rfl

theorem eraseT_cons {c : Char} {rest : Str}
    (h : ¬ startsList (str "```") (c :: rest) = true) :
    eraseSub (str "```") (c :: rest) = c :: eraseSub (str "```") rest := by
  show replAux (str "```") [] 0 (c :: rest) = c :: replAux (str "```") [] 0 rest
  rw [replAux]
  rw [if_neg (by intro hand; exact h hand.2)]

theorem eraseT_spec : ∀ (n : Nat) (s : Str), s.length ≤ n →
    containsSubCore (str "```") (eraseSub (str "```") s) = false ∧
    leadT (eraseSub (str "```") s) ≤ leadT s := by
  intro n
  induction n with
  | zero =>
    intro s hs
    have hnil : s = [] := List.length_eq_zero.mp (Nat.le_zero.mp hs)
    subst hnil
    exact ⟨by decide, by decide⟩
  | succ n ih =>
    intro s hs
    match s with
    | [] => exact ⟨by decide, by decide⟩
    | c :: rest =>
      by_cases hstart : startsList (str "```") (c :: rest) = true
      · obtain ⟨v, hv⟩ := (startsTicks_iff _).mp hstart
        rw [List.cons.injEq] at hv
        obtain ⟨hc, hrest⟩ := hv
        subst hc; subst hrest
        have hlen : v.length ≤ n := by
          simp only [List.length_cons] at hs; omega
        obtain ⟨ih1, ih2⟩ := ih v hlen
        rw [eraseT_triple]
        refine ⟨ih1, ?_⟩
        rw [leadT_cons_tick, leadT_cons_tick, leadT_cons_tick]
        omega
      · have hlen : rest.length ≤ n := by
          simp only [List.length_cons] at hs; omega
        obtain ⟨ih1, ih2⟩ := ih rest hlen
        rw [eraseT_cons hstart]
        constructor
        · show containsSubCore (str "```") (c :: eraseSub (str "```") rest) = false
          rw [containsSubCore, ih1, Bool.or_false]
          by_contra hT
          rw [Bool.not_eq_false] at hT
          obtain ⟨v2, hv2⟩ := (startsTicks_iff _).mp hT
          rw [List.cons.injEq] at hv2
          obtain ⟨hc, hw⟩ := hv2
          have hlead : 2 ≤ leadT (eraseSub (str "```") rest) := by
            rw [hw, leadT_cons_tick, leadT_cons_tick]; omega
          have hlead2 : 2 ≤ leadT rest := le_trans hlead ih2
          obtain ⟨u, hu⟩ := leadT_ge2 hlead2
          apply hstart
          rw [startsTicks_iff]
          exact ⟨u, by rw [hc, hu]⟩
        · by_cases hc : c = '`'
          · subst hc
            rw [leadT_cons_tick, leadT_cons_tick]
            omega
          · rw [leadT_cons_other _ hc, leadT_cons_other _ hc]

theorem contains_ticks_erased (s : Str) :
    containsSubCore (str "```") (eraseSub (str "```") s) = false :=
  (eraseT_spec s.length s le_rfl).1

theorem contains_nil_pat (s : Str) : containsSubCore [] s = true := by
  cases s <;> simp [containsSubCore, startsList]

theorem pat_ne_nil {pat s : Str} (h : containsSubCore pat s = false) : pat ≠ [] := by
  intro he
  subst he
  rw [contains_nil_pat] at h
  exact Bool.true_eq_false.mp h

theorem contains_nil_of_ne {pat : Str} (h : pat ≠ []) : containsSubCore pat [] = false := by
  cases pat with
  | nil => exact absurd rfl h
  | cons q qs => rfl

theorem contains_cons_false {pat : Str} {c : Char} {rest : Str}
    (h : containsSubCore pat (c :: rest) = false) :
    startsList pat (c :: rest) = false ∧ containsSubCore pat rest = false := by
  rw [containsSubCore, Bool.or_eq_false_iff] at h
  exact h

theorem startsList_takeWhile {p : Char → Bool} : ∀ (pat s : Str),
    startsList pat (s.takeWhile p) = true → startsList pat s = true := by
  intro pat
  induction pat with
  | nil => intro s _; rfl
  | cons q qs ih =>
    intro s h
    cases s with
    | nil => simp [List.takeWhile_nil, startsList] at h
    | cons c rest =>
      rw [List.takeWhile_cons] at h
      by_cases hp : p c = true
      · rw [if_pos hp] at h
        rw [startsList, Bool.and_eq_true] at h ⊢
        exact ⟨h.1, ih rest h.2⟩
      · rw [if_neg hp] at h
        simp [startsList] at h

theorem splitChar_head (sep : Char) : ∀ (s : Str),
    ∃ ls, splitChar sep s = (s.takeWhile (fun c => !(c == sep))) :: ls := by
  intro s
  induction s with
  | nil => exact ⟨[], rfl⟩
  | cons c rest ih =>
    by_cases hc : c = sep
    · subst hc
      refine ⟨splitChar c rest, ?_⟩
      rw [splitChar, if_pos rfl]
      simp [List.takeWhile_cons]
    · obtain ⟨ls, hls⟩ := ih
      refine ⟨ls, ?_⟩
      rw [splitChar, if_neg hc, hls, consHead, List.takeWhile_cons]
      rw [if_pos (by simp [hc])]

theorem splitChar_keeps_noSub (pat : Str) (sep : Char) : ∀ (s : Str),
    containsSubCore pat s = false → ∀ l ∈ splitChar sep s, containsSubCore pat l = false := by
  intro s
  induction s with
  | nil =>
    intro h l hl
    rw [splitChar, List.mem_singleton] at hl
    subst hl
    exact contains_nil_of_ne (pat_ne_nil h)
  | cons c rest ih =>
    intro h l hl
    obtain ⟨hst, hrest⟩ := contains_cons_false h
    by_cases hc : c = sep
    · subst hc
      rw [splitChar, if_pos rfl, List.mem_cons] at hl
      rcases hl with hl | hl
      · subst hl; exact contains_nil_of_ne (pat_ne_nil h)
      · exact ih hrest l hl
    · obtain ⟨ls, hls⟩ := splitChar_head sep rest
      rw [splitChar, if_neg hc, hls, consHead, List.mem_cons] at hl
      rcases hl with hl | hl
      · subst hl
        rw [containsSubCore, Bool.or_eq_false_iff]
        constructor
        · by_contra hT
          rw [Bool.not_eq_false] at hT
          cases pat with
          | nil => exact absurd rfl (pat_ne_nil h)
          | cons q qs =>
            rw [startsList, Bool.and_eq_true] at hT
            have h2 := startsList_takeWhile qs rest hT.2
            have : startsList (q :: qs) (c :: rest) = true := by
              rw [startsList, Bool.and_eq_true]
              exact ⟨hT.1, h2⟩
            rw [hst] at this
            exact Bool.false_ne_true this
        · exact ih hrest _ (by rw [hls]; exact List.mem_cons_self _ _)
      · exact ih hrest l (by rw [hls]; exact List.mem_cons_of_mem _ hl)

theorem splitChar_mem_noSep (sep : Char) : ∀ (s : Str) (l : Str),
    l ∈ splitChar sep s → sep ∉ l := by
  intro s
  induction s with
  | nil =>
    intro l hl
    rw [splitChar, List.mem_singleton] at hl
    subst hl
    exact List.not_mem_nil sep
  | cons c rest ih =>
    intro l hl
    by_cases hc : c = sep
    · subst hc
      rw [splitChar, if_pos rfl, List.mem_cons] at hl
      rcases hl with hl | hl
      · subst hl; exact List.not_mem_nil c
      · exact ih l hl
    · obtain ⟨ls, hls⟩ := splitChar_head sep rest
      rw [splitChar, if_neg hc, hls, consHead, List.mem_cons] at hl
      rcases hl with hl | hl
      · subst hl
        intro hmem
        rcases List.mem_cons.mp hmem with h1 | h1
        · exact hc h1.symm
        · have hp := List.mem_takeWhile_imp h1
          simp at hp
      · exact ih l (by rw [hls]; exact List.mem_cons_of_mem _ hl)

theorem startsList_long : ∀ (x : Str) (pat : Str) (sep : Char) (b : Str),
    startsList pat (x ++ sep :: b) = true → startsList pat x = true ∨ sep ∈ pat := by
  intro x
  induction x with
  | nil =>
    intro pat sep b h
    cases pat with
    | nil => exact Or.inl rfl
    | cons q qs =>
      rw [List.nil_append, startsList, Bool.and_eq_true] at h
      have hq : q = sep := by
        have := h.1
        simpa using this
      exact Or.inr (by rw [hq]; exact List.mem_cons_self _ _)
  | cons c x2 ih =>
    intro pat sep b h
    cases pat with
    | nil => exact Or.inl rfl
    | cons q qs =>
      rw [List.cons_append, startsList, Bool.and_eq_true] at h
      rcases ih qs sep b h.2 with h1 | h2
      · refine Or.inl ?_
        rw [startsList, Bool.and_eq_true]
        exact ⟨h.1, h1⟩
      · exact Or.inr (List.mem_cons_of_mem _ h2)

theorem contains_append_sep {pat : Str} {sep : Char} (hsep : sep ∉ pat) :
    ∀ (a b : Str), containsSubCore pat a = false → containsSubCore pat b = false →
    containsSubCore pat (a ++ sep :: b) = false := by
  intro a
  induction a with
  | nil =>
    intro b ha hb
    rw [List.nil_append, containsSubCore, hb, Bool.or_false]
    cases pat with
    | nil => exact absurd rfl (pat_ne_nil ha)
    | cons q qs =>
      by_contra hT
      rw [Bool.not_eq_false, startsList, Bool.and_eq_true] at hT
      have hq : q = sep := by simpa using hT.1
      exact hsep (by rw [← hq]; exact List.mem_cons_self _ _)
  | cons c a2 ih =>
    intro b ha hb
    obtain ⟨hst, ha2⟩ := contains_cons_false ha
    rw [List.cons_append, containsSubCore, ih b ha2 hb, Bool.or_false]
    by_contra hT
    rw [Bool.not_eq_false] at hT
    have hsplit := startsList_long (c :: a2) pat sep b (by rw [List.cons_append]; exact hT)
    rcases hsplit with h1 | h2
    · rw [hst] at h1; exact Bool.false_ne_true h1
    · exact hsep h2

theorem joinNL_noSub {pat : Str} (hpne : pat ≠ []) (hsep : '\n' ∉ pat) :
    ∀ (ls : List Str), (∀ l ∈ ls, containsSubCore pat l = false) →
    containsSubCore pat (joinNL ls) = false := by
  intro ls
  induction ls with
  | nil => intro _; exact contains_nil_of_ne hpne
  | cons l rest ih =>
    intro h
    cases rest with
    | nil => exact h l (List.mem_cons_self _ _)
    | cons l2 rest2 =>
      rw [joinNL]
      apply contains_append_sep hsep
      · exact h l (List.mem_cons_self _ _)
      · exact ih (fun l' hl' => h l' (List.mem_cons_of_mem _ hl'))

theorem takeWhile_all {p : Char → Bool} : ∀ (l : Str), (∀ c ∈ l, p c = true) →
    l.takeWhile p = l := by
  intro l
  induction l with
  | nil => intro _; rfl
  | cons c rest ih =>
    intro h
    rw [List.takeWhile_cons, if_pos (h c (List.mem_cons_self _ _))]
    rw [ih (fun d hd => h d (List.mem_cons_of_mem _ hd))]

theorem takeWhile_append_all {p : Char → Bool} : ∀ (l x : Str), (∀ c ∈ l, p c = true) →
    (l ++ x).takeWhile p = l ++ x.takeWhile p := by
  intro l
  induction l with
  | nil => intro x _; rfl
  | cons c rest ih =>
    intro x h
    rw [List.cons_append, List.takeWhile_cons, if_pos (h c (List.mem_cons_self _ _))]
    rw [ih x (fun d hd => h d (List.mem_cons_of_mem _ hd)), List.cons_append]

theorem firstLine_joinNL {l0 : Str} (hnl : '\n' ∉ l0) (rest : List Str) :
    (joinNL (l0 :: rest)).takeWhile (fun c => !(c == '\n')) = l0 := by
  have hall : ∀ c ∈ l0, (!(c == '\n')) = true := by
    intro c hmem
    have hne : c ≠ '\n' := fun hcc => hnl (hcc ▸ hmem)
    simp [hne]
  cases rest with
  | nil => exact takeWhile_all l0 hall
  | cons l2 rest2 =>
    rw [joinNL, takeWhile_append_all l0 _ hall, List.takeWhile_cons]
    rw [if_neg (by simp)]
    rw [List.append_nil]

theorem c8_assembled (cl : List Str)
    (hlines : ∀ l ∈ cl, containsSubCore (str "```") l = false)
    (hnl : ∀ l ∈ cl, '\n' ∉ l) :
    containsSubCore (str "```") (joinNL (scriptLines cl)) = false ∧
    (joinNL (scriptLines cl) ≠ [] →
      startsList (str "//")
        (stripCore ((joinNL (scriptLines cl)).takeWhile (fun c => !(c == '\n')))) = true) := by
  cases cl with
  | nil =>
    exact ⟨contains_nil_of_ne (by decide), fun hne => absurd rfl hne⟩
  | cons l0 rest =>
    have hl0lines := hlines l0 (List.mem_cons_self _ _)
    have hl0nl := hnl l0 (List.mem_cons_self _ _)
    by_cases hsw : startsList (str "//") (stripCore l0) = true
    · rw [scriptLines, if_pos hsw]
      constructor
      · exact joinNL_noSub (by decide) (by decide) _ hlines
      · intro _
        rw [firstLine_joinNL hl0nl rest]
        exact hsw
    · rw [scriptLines, if_neg hsw]
      constructor
      · apply joinNL_noSub (by decide) (by decide)
        intro l hl
        rcases List.mem_cons.mp hl with h | h
        · subst h; decide
        · exact hlines l h
      · intro _
        rw [firstLine_joinNL (by decide) (l0 :: rest)]
        decide

/-! ## C8 -/

/-- C8: cleaning a script section removes every code-fence delimiter and,
when the cleaned content is non-empty, its first line (stripped) starts with
the comment marker, either because it already did or because the synthetic
comment line was prepended. -/
theorem c8_theorem (content : Str) :
    containsSubCore (str "```") (clean_section_content (str "macro_script") content) = false ∧
    (clean_section_content (str "macro_script") content ≠ [] →
      startsList (str "//")
        (stripCore ((clean_section_content (str "macro_script") content).takeWhile
          (fun c => !(c == '\n')))) = true) := by
  have key := c8_assembled
    ((splitChar '\n' (eraseSub (str "```") (eraseSub (str "```javascript")
      (stripCore (eraseSub (str "[EXPLANATION]") (eraseSub (str "[DESCRIPTION]") content)))))).filter
      (fun l => !(stripCore l).isEmpty))
    (fun l hl => splitChar_keeps_noSub _ '\n' _ (contains_ticks_erased _) l (List.mem_of_mem_filter hl))
    (fun l hl => splitChar_mem_noSep '\n' _ l (List.mem_of_mem_filter hl))
  have heq : clean_section_content (str "macro_script") content =
      joinNL (scriptLines ((splitChar '\n' (eraseSub (str "```") (eraseSub (str "```javascript")
        (stripCore (eraseSub (str "[EXPLANATION]") (eraseSub (str "[DESCRIPTION]") content)))))).filter
        (fun l => !(stripCore l).isEmpty))) := by
    rw [clean_section_content, if_pos rfl]
  rw [heq]
  exact key

/-- Witness for C8 at a concrete fenced script. -/
theorem c8_witness :
    containsSubCore (str "```")
      (clean_section_content (str "macro_script")
        (str "```javascript\nrun(\"8-bit\");\n\n```")) = false ∧
    startsList (str "//")
      (stripCore ((clean_section_content (str "macro_script")
        (str "```javascript\nrun(\"8-bit\");\n\n```")).takeWhile
        (fun c => !(c == '\n')))) = true :=
  ⟨(c8_theorem (str "```javascript\nrun(\"8-bit\");\n\n```")).1,
   (c8_theorem (str "```javascript\nrun(\"8-bit\");\n\n```")).2 (by decide)⟩

/-! ## C3 helper lemmas: the delta loop of the section parser -/

theorem handle_fires_D {d sec : Str} (h : containsSubCore (str "[DESCRIPTION]") d = true) :
    handle_section_transition d sec = true := by
  rw [handle_section_transition, if_pos h]

theorem handle_fires_E {d sec : Str} (hD : containsSubCore (str "[DESCRIPTION]") d = false)
    (hE : containsSubCore (str "[EXPLANATION]") d = true) :
    handle_section_transition d sec = true := by
  rw [handle_section_transition]
  rw [if_neg (by rw [hD]; exact Bool.false_ne_true)]
  by_cases hmid : (containsSubCore (str "```") d && sec = str "description") = true
  · rw [if_pos hmid]
  · rw [if_neg hmid, if_pos hE]

theorem handle_other_false {d sec : Str} (hsec : ¬ sec = str "description")
    (hD : containsSubCore (str "[DESCRIPTION]") d = false)
    (hE : containsSubCore (str "[EXPLANATION]") d = false) :
    handle_section_transition d sec = false := by
  rw [handle_section_transition]
  rw [if_neg (by rw [hD]; exact Bool.false_ne_true)]
  rw [if_neg ?_]
  · rw [if_neg (by rw [hE]; exact Bool.false_ne_true)]
  · intro hmid
    rw [Bool.and_eq_true] at hmid
    exact hsec (of_decide_eq_true hmid.2)

theorem nextDesc : get_next_section (str "description") = str "macro_script" := by decide

theorem nextMS : get_next_section (str "macro_script") = str "explanation" := by decide

theorem macroStep_trans {st : Str × Str} {d : Str} (h : handle_section_transition d st.1 = true) :
    macroStep st d = ((get_next_section st.1, []),
      [SEvent.section_change st.1 (stripCore (clean_section_content st.1 (st.2 ++ d)))]) := by
  simp only [macroStep, process_section_change]
  rw [if_pos h]

theorem macroStep_msg {st : Str × Str} {d : Str} (h : handle_section_transition d st.1 = false) :
    macroStep st d = ((st.1, st.2 ++ d), [SEvent.message d st.1]) := by
  simp only [macroStep]
  rw [if_neg (by rw [h]; exact Bool.false_ne_true)]

theorem stepsNoTrig : ∀ (ds : List Str) (sec acc : Str),
    (∀ d ∈ ds, handle_section_transition d sec = false) →
    macroSteps (sec, acc) ds =
      ((sec, acc ++ concatL ds), ds.map (fun d => SEvent.message d sec)) := by
  intro ds
  induction ds with
  | nil =>
    intro sec acc _
    simp [macroSteps, concatL]
  | cons d ds ih =>
    intro sec acc h
    simp only [macroSteps]
    rw [macroStep_msg (h d (List.mem_cons_self _ _))]
    rw [ih sec (acc ++ d) (fun d2 hd2 => h d2 (List.mem_cons_of_mem _ hd2))]
    simp [concatL, List.append_assoc]

theorem macroSteps_append : ∀ (as bs : List Str) (st : Str × Str),
    macroSteps st (as ++ bs) =
      ((macroSteps (macroSteps st as).1 bs).1,
        (macroSteps st as).2 ++ (macroSteps (macroSteps st as).1 bs).2) := by
  intro as
  induction as with
  | nil => intro bs st; simp [macroSteps]
  | cons d as ih =>
    intro bs st
    simp only [List.cons_append, macroSteps, List.append_eq]
    rw [ih bs (macroStep st d).1]
    simp [List.append_assoc]

/-! ## C3 -/

/-- C3 counterexample: a delta sequence containing exactly one description
marker, one code fence and one explanation marker (in that arrival order:
explanation, fence, description) produces section_change events with section
names description, description, macro_script, not the claimed order
description, macro_script, explanation, and no explanation section_change at
all. -/
theorem c3_counterexample :
    ((generate_macro_from_prompt ⟨none, c3deltas, none⟩).1.filterMap getSC).map Prod.fst =
      [str "description", str "description", str "macro_script"] ∧
    ((generate_macro_from_prompt ⟨none, c3deltas, none⟩).1.filterMap getSC).map Prod.fst ≠
      [str "description", str "macro_script", str "explanation"] := by
  exact ⟨by decide, by decide⟩

/-- C3 amended: when the description marker arrives first, then marker-free
deltas (code fences allowed, since a fence does not end the script section),
then the explanation-marker delta, then marker-free trailing content, the
stream is exactly: the initial empty description section_change, a boundary
section_change for description, message events for the script deltas, a
boundary section_change for macro_script, message events for the trailing
deltas, a final section_change carrying the cleaned trailing explanation
content, and one complete event. -/
theorem c3_theorem (d1 : Str) (mid : List Str) (d3 : Str) (tl : List Str)
    (h1 : containsSubCore (str "[DESCRIPTION]") d1 = true)
    (hmid : ∀ d ∈ mid, containsSubCore (str "[DESCRIPTION]") d = false ∧
      containsSubCore (str "[EXPLANATION]") d = false)
    (h3D : containsSubCore (str "[DESCRIPTION]") d3 = false)
    (h3E : containsSubCore (str "[EXPLANATION]") d3 = true)
    (htl : ∀ d ∈ tl, containsSubCore (str "[DESCRIPTION]") d = false ∧
      containsSubCore (str "[EXPLANATION]") d = false)
    (hne : concatL tl ≠ []) :
    (generate_macro_from_prompt ⟨none, d1 :: mid ++ d3 :: tl, none⟩).1 =
      SEvent.section_change (str "description") [] ::
      SEvent.section_change (str "description")
        (stripCore (clean_section_content (str "description") d1)) ::
      (mid.map (fun d => SEvent.message d (str "macro_script")) ++
        SEvent.section_change (str "macro_script")
          (stripCore (clean_section_content (str "macro_script") (concatL mid ++ d3))) ::
        (tl.map (fun d => SEvent.message d (str "explanation")) ++
          [SEvent.section_change (str "explanation")
            (clean_section_content (str "explanation") (stripCore (concatL tl))),
           SEvent.complete (str "Macro generation complete")])) ∧
    (generate_macro_from_prompt ⟨none, d1 :: mid ++ d3 :: tl, none⟩).2 = none := by
  have s1 : macroStep (str "description", ([] : Str)) d1 =
      ((str "macro_script", []),
       [SEvent.section_change (str "description")
         (stripCore (clean_section_content (str "description") d1))]) := by
    rw [macroStep_trans (handle_fires_D h1)]
    simp [nextDesc]
  have s2 : macroSteps (str "macro_script", ([] : Str)) mid =
      ((str "macro_script", concatL mid),
       mid.map (fun d => SEvent.message d (str "macro_script"))) := by
    rw [stepsNoTrig mid _ _
      (fun d hd => handle_other_false (by decide) (hmid d hd).1 (hmid d hd).2)]
    simp
  have s3 : macroStep (str "macro_script", concatL mid) d3 =
      ((str "explanation", []),
       [SEvent.section_change (str "macro_script")
         (stripCore (clean_section_content (str "macro_script") (concatL mid ++ d3)))]) := by
    rw [macroStep_trans (handle_fires_E h3D h3E)]
    simp [nextMS]
  have s4 : macroSteps (str "explanation", ([] : Str)) tl =
      ((str "explanation", concatL tl),
       tl.map (fun d => SEvent.message d (str "explanation"))) := by
    rw [stepsNoTrig tl _ _
      (fun d hd => handle_other_false (by decide) (htl d hd).1 (htl d hd).2)]
    simp
  have hsteps : macroSteps (str "description", ([] : Str)) (d1 :: mid ++ d3 :: tl) =
      ((str "explanation", concatL tl),
        SEvent.section_change (str "description")
          (stripCore (clean_section_content (str "description") d1)) ::
        (mid.map (fun d => SEvent.message d (str "macro_script")) ++
          SEvent.section_change (str "macro_script")
            (stripCore (clean_section_content (str "macro_script") (concatL mid ++ d3))) ::
          tl.map (fun d => SEvent.message d (str "explanation")))) := by
    have c1 : macroSteps (str "description", ([] : Str)) (d1 :: (mid ++ d3 :: tl)) =
        ((macroSteps (macroStep (str "description", ([] : Str)) d1).1 (mid ++ d3 :: tl)).1,
         (macroStep (str "description", ([] : Str)) d1).2 ++
           (macroSteps (macroStep (str "description", ([] : Str)) d1).1 (mid ++ d3 :: tl)).2) := rfl
    rw [show d1 :: mid ++ d3 :: tl = d1 :: (mid ++ d3 :: tl) from rfl, c1]
    simp only [s1]
    rw [macroSteps_append]
    simp only [s2]
    have c2 : macroSteps (str "macro_script", concatL mid) (d3 :: tl) =
        ((macroSteps (macroStep (str "macro_script", concatL mid) d3).1 tl).1,
         (macroStep (str "macro_script", concatL mid) d3).2 ++
           (macroSteps (macroStep (str "macro_script", concatL mid) d3).1 tl).2) := rfl
    rw [c2]
    simp only [s3]
    simp only [s4]
    simp [List.append_assoc]
  constructor
  · simp only [generate_macro_from_prompt]
    rw [hsteps]
    rw [if_neg (by simpa using hne)]
    simp [List.append_assoc]
  · simp only [generate_macro_from_prompt]

/-- Witness for C3 at a concrete canonically-ordered generation stream. -/
theorem c3_witness :
    (generate_macro_from_prompt ⟨none,
      [str "[DESCRIPTION] Count the cells", str "Threshold first.",
       str "```javascript\nrun(\"8-bit\");\n```", str "[EXPLANATION]",
       str " The macro uses thresholding."], none⟩).1 =
      [SEvent.section_change (str "description") [],
       SEvent.section_change (str "description") (str "Count the cells"),
       SEvent.message (str "Threshold first.") (str "macro_script"),
       SEvent.message (str "```javascript\nrun(\"8-bit\");\n```") (str "macro_script"),
       SEvent.section_change (str "macro_script")
         (str "// Generated ImageJ Macro\nThreshold first.\nrun(\"8-bit\");"),
       SEvent.message (str " The macro uses thresholding.") (str "explanation"),
       SEvent.section_change (str "explanation") (str "The macro uses thresholding."),
       SEvent.complete (str "Macro generation complete")] := by
  have h := (c3_theorem (str "[DESCRIPTION] Count the cells")
      [str "Threshold first.", str "```javascript\nrun(\"8-bit\");\n```"]
      (str "[EXPLANATION]") [str " The macro uses thresholding."]
      (by decide) (by decide) (by decide) (by decide) (by decide) (by decide)).1
  exact h.trans (by decide)

/-! ## C4 helper lemmas -/

theorem streamLoop_never (r : Option Str) : ∀ (evs : List SEvent) (i : Nat),
    streamLoop neverDisc i evs r =
      evs.map frame ++ (match r with | some m => [errWire m] | none => []) := by
  intro evs
  induction evs with
  | nil => intro i; cases r <;> rfl
  | cons e rest ih =>
    intro i
    simp only [streamLoop, neverDisc, Bool.false_eq_true, if_false, List.map_cons,
      List.cons_append]
    rw [ih (i + 1)]

theorem steps_shape : ∀ (ds : List Str) (st : Str × Str), ∀ ev ∈ (macroSteps st ds).2,
    (∃ s c, ev = SEvent.section_change s c) ∨ (∃ c s, ev = SEvent.message c s) := by
  intro ds
  induction ds with
  | nil => intro st ev hev; simp [macroSteps] at hev
  | cons d ds ih =>
    intro st ev hev
    simp only [macroSteps] at hev
    rw [List.mem_append] at hev
    rcases hev with h | h
    · by_cases ht : handle_section_transition d st.1 = true
      · rw [macroStep_trans ht] at h
        simp only [List.mem_singleton] at h
        subst h
        exact Or.inl ⟨_, _, rfl⟩
      · rw [Bool.not_eq_true] at ht
        rw [macroStep_msg ht] at h
        simp only [List.mem_singleton] at h
        subst h
        exact Or.inr ⟨_, _, rfl⟩
    · exact ih _ ev h

/-! ## C4 -/

/-- C4 counterexample: with a connected client and an upstream that raises
when the stream is opened, the client-visible stream contains two error
events, not one: the one yielded by generate_macro_from_prompt and the one
the transport frames for the HTTPException the generator then raises. -/
theorem c4_counterexample :
    macro_stream neverDisc false ⟨[], none⟩ ⟨some (str "api connection reset"), [], none⟩ =
      [errWire (str "api connection reset"), errWire genFailS] ∧
    ((macro_stream neverDisc false ⟨[], none⟩
        ⟨some (str "api connection reset"), [], none⟩).filter
      (fun w => w.event = str "error")).length = 2 := by
  exact ⟨by decide, by decide⟩

/-- C4 amended: on any upstream failure with a connected client the stream
ends with exactly two error events, the upstream failure message followed by
the wrapped HTTPException message; no complete event follows an error, and
every earlier event is a section_change or message frame. -/
theorem c4_theorem (ui : ImproveUpstream) (u : Upstream) :
    (∀ e, u.openErr = some e →
      macro_stream neverDisc false ui u = [errWire e, errWire genFailS]) ∧
    (u.openErr = none → ∀ e, u.midErr = some e →
      macro_stream neverDisc false ui u =
        (SEvent.section_change (str "description") [] ::
          (macroSteps (str "description", []) u.deltas).2).map frame ++
        [errWire e, errWire genFailS] ∧
      ∀ w ∈ (SEvent.section_change (str "description") [] ::
          (macroSteps (str "description", []) u.deltas).2).map frame,
        w.event ≠ str "error" ∧ w.event ≠ str "complete") := by
  cases u with
  | mk oe ds me =>
    constructor
    · intro e he
      simp only at he
      subst he
      simp only [macro_stream, generate_macro_from_prompt]
      rw [streamLoop_never]
      rfl
    · intro hoe e hme
      simp only at hoe hme
      subst hoe
      subst hme
      constructor
      · simp only [macro_stream, generate_macro_from_prompt]
        rw [streamLoop_never]
        simp [List.map_append, List.append_assoc, errWire, frame]
      · intro w hw
        rw [List.mem_map] at hw
        obtain ⟨ev, hev, hfw⟩ := hw
        subst hfw
        rcases List.mem_cons.mp hev with h | h
        · subst h
          exact ⟨by decide, by decide⟩
        · rcases steps_shape _ _ ev h with ⟨s, c, hsc⟩ | ⟨c, s, hsc⟩
          · subst hsc
            constructor
            · show ¬ str "section_change" = str "error"
              decide
            · show ¬ str "section_change" = str "complete"
              decide
          · subst hsc
            constructor
            · show ¬ str "message" = str "error"
              decide
            · show ¬ str "message" = str "complete"
              decide

/-- Witness for C4 at a concrete open-failure stream. -/
theorem c4_witness :
    macro_stream neverDisc false ⟨[], none⟩ ⟨some (str "upstream down"), [], none⟩ =
      [errWire (str "upstream down"), errWire genFailS] :=
  (c4_theorem ⟨[], none⟩ ⟨some (str "upstream down"), [], none⟩).1 (str "upstream down") rfl

/-! ## C6 helper lemmas -/

theorem waitExists_none_iff (ex : Nat → Bool) : ∀ (n k : Nat),
    waitExists ex n k = none ↔ ∀ j, j ≤ n → ex (k + j) = false := by
  intro n
  induction n with
  | zero =>
    intro k
    rw [waitExists]
    by_cases hek : ex k = true
    · rw [if_pos hek]
      constructor
      · intro hc; exact absurd hc (by simp)
      · intro hall
        have := hall 0 (le_refl 0)
        rw [Nat.add_zero] at this
        rw [this] at hek
        exact absurd hek (by simp)
    · rw [Bool.not_eq_true] at hek
      rw [if_neg (by rw [hek]; exact Bool.false_ne_true)]
      constructor
      · intro _ j hj
        interval_cases j
        rw [Nat.add_zero]
        exact hek
      · intro _; rfl
  | succ n ih =>
    intro k
    rw [waitExists]
    by_cases hek : ex k = true
    · rw [if_pos hek]
      constructor
      · intro hc; exact absurd hc (by simp)
      · intro hall
        have := hall 0 (Nat.zero_le _)
        rw [Nat.add_zero] at this
        rw [this] at hek
        exact absurd hek (by simp)
    · rw [Bool.not_eq_true] at hek
      rw [if_neg (by rw [hek]; exact Bool.false_ne_true)]
      rw [ih (k + 1)]
      constructor
      · intro hall j hj
        cases j with
        | zero => rw [Nat.add_zero]; exact hek
        | succ j2 =>
          have := hall j2 (by omega)
          rw [show k + 1 + j2 = k + (j2 + 1) from by omega] at this
          exact this
      · intro hall j hj
        have := hall (j + 1) (by omega)
        rw [show k + (j + 1) = k + 1 + j from by omega] at this
        exact this

theorem sizeLoop_ne_timeout (sz : Nat → Nat) : ∀ (n t prev : Nat),
    sizeLoop sz n t prev ≠ WaitRes.timeoutErr := by
  intro n
  induction n with
  | zero =>
    intro t prev
    rw [sizeLoop]
    by_cases h : prev = 0
    · rw [if_pos h]; exact fun hc => WaitRes.noConfusion hc
    · rw [if_neg h]; exact fun hc => WaitRes.noConfusion hc
  | succ n ih =>
    intro t prev
    rw [sizeLoop]
    by_cases h : sz t > 0 ∧ sz t = prev
    · rw [if_pos h]; exact fun hc => WaitRes.noConfusion hc
    · rw [if_neg h]; exact ih (t + 1) (sz t)

theorem sizeLoop_stable_success (sz : Nat → Nat) : ∀ (n t prev : Nat),
    ((prev ≠ 0 ∧ sz t = prev) ∨
      ∃ j, j + 1 < n ∧ sz (t + j + 1) = sz (t + j) ∧ sz (t + j) ≠ 0) →
    sizeLoop sz n t prev = WaitRes.success := by
  intro n
  induction n with
  | zero =>
    intro t prev h
    rcases h with ⟨h1, _⟩ | ⟨j, hj, _⟩
    · rw [sizeLoop, if_neg h1]
    · omega
  | succ n ih =>
    intro t prev h
    rw [sizeLoop]
    by_cases hcc : sz t > 0 ∧ sz t = prev
    · rw [if_pos hcc]
    · rw [if_neg hcc]
      apply ih (t + 1) (sz t)
      rcases h with ⟨h1, h2⟩ | ⟨j, hj1, hj2, hj3⟩
      · exact absurd ⟨by omega, h2⟩ hcc
      · cases j with
        | zero =>
          refine Or.inl ⟨?_, ?_⟩
          · rw [Nat.add_zero] at hj3; exact hj3
          · rw [Nat.add_zero] at hj2
            rw [show t + 0 + 1 = t + 1 from by omega] at hj2
            exact hj2
        | succ j2 =>
          refine Or.inr ⟨j2, by omega, ?_, ?_⟩
          · rw [show t + 1 + j2 + 1 = t + (j2 + 1) + 1 from by omega,
              show t + 1 + j2 = t + (j2 + 1) from by omega]
            exact hj2
          · rw [show t + 1 + j2 = t + (j2 + 1) from by omega]
            exact hj3

theorem sizeLoop_unstable (sz : Nat → Nat) : ∀ (n t prev : Nat),
    (∀ j, j < n → ¬(sz (t + j) ≠ 0 ∧ sz (t + j) = (if j = 0 then prev else sz (t + j - 1)))) →
    sizeLoop sz n t prev =
      (if (if n = 0 then prev else sz (t + n - 1)) = 0 then WaitRes.emptyErr
        else WaitRes.success) := by
  intro n
  induction n with
  | zero =>
    intro t prev _
    rw [sizeLoop]
    simp
  | succ n ih =>
    intro t prev h
    have h0 := h 0 (by omega)
    have hnext : ∀ j, j < n →
        ¬(sz (t + 1 + j) ≠ 0 ∧ sz (t + 1 + j) = if j = 0 then sz t else sz (t + 1 + j - 1)) := by
      intro j hj
      have horig := h (j + 1) (by omega)
      cases j with
      | zero =>
        intro hcon
        apply horig
        rw [show t + (0 + 1) = t + 1 + 0 from by omega]
        refine ⟨hcon.1, ?_⟩
        rw [if_neg (by omega), show t + 1 + 0 - 1 = t from by omega]
        rw [if_pos rfl] at hcon
        exact hcon.2
      | succ j2 =>
        intro hcon
        apply horig
        rw [if_neg (by omega)] at hcon
        rw [if_neg (by omega)]
        rw [show t + (j2 + 1 + 1) = t + 1 + (j2 + 1) from by omega]
        exact hcon
    rw [sizeLoop]
    rw [if_neg ?_]
    · rw [ih (t + 1) (sz t) hnext]
      have harg : (if n = 0 then sz t else sz (t + 1 + n - 1)) = sz (t + (n + 1) - 1) := by
        cases n with
        | zero => simp
        | succ n2 =>
          rw [if_neg (by omega)]
          congr 1
          omega
      rw [harg, if_neg (by omega : ¬ n + 1 = 0)]
    · intro hcon
      apply h0
      rw [Nat.add_zero]
      exact ⟨by omega, by rw [if_pos rfl]; exact hcon.2⟩

/-! ## C6 -/

/-- C6 counterexample: against a file whose size grows at every poll,
_wait_for_file returns success after its ten rounds even though no two
consecutive size observations were ever equal, contradicting the claim that
success is returned only on a stable non-zero size. -/
theorem c6_counterexample :
    wait_for_file exAlways szGrow 5 = WaitRes.success ∧
    ((List.range 10).all (fun j => szGrow (j + 1) != szGrow j)) = true := by
  exact ⟨by decide, by decide⟩

/-- C6 amended: _wait_for_file returns a timeout exactly when the path never
appears within the poll budget; once the file is found at poll i, it returns
success either when some round 1..9 observes a non-zero size equal to the
previous observation, or when all ten rounds pass without that and the last
observed size is non-zero; it reports the empty-file failure (distinct from
timeout) exactly when the rounds pass without stability and the last
observed size is zero. -/
theorem c6_theorem (ex : Nat → Bool) (sz : Nat → Nat) (N : Nat) :
    (wait_for_file ex sz N = WaitRes.timeoutErr ↔ ∀ j, j ≤ N → ex j = false) ∧
    (∀ i, waitExists ex N 0 = some i →
      ((∃ j, 1 ≤ j ∧ j ≤ 9 ∧ sz (i + j) ≠ 0 ∧ sz (i + j) = sz (i + j - 1)) →
        wait_for_file ex sz N = WaitRes.success) ∧
      ((∀ j, 1 ≤ j → j ≤ 9 → ¬(sz (i + j) ≠ 0 ∧ sz (i + j) = sz (i + j - 1))) →
        wait_for_file ex sz N =
          (if sz (i + 9) = 0 then WaitRes.emptyErr else WaitRes.success))) ∧
    WaitRes.timeoutErr ≠ WaitRes.emptyErr := by
  refine ⟨?_, ?_, by decide⟩
  · constructor
    · intro hto
      rw [wait_for_file] at hto
      cases hwe : waitExists ex N 0 with
      | none =>
        intro j hj
        have := (waitExists_none_iff ex N 0).mp hwe j hj
        rw [Nat.zero_add] at this
        exact this
      | some i =>
        rw [hwe] at hto
        exact absurd hto (sizeLoop_ne_timeout sz 10 i 0)
    · intro hall
      rw [wait_for_file]
      have hwe : waitExists ex N 0 = none := by
        rw [waitExists_none_iff]
        intro j hj
        rw [Nat.zero_add]
        exact hall j hj
      rw [hwe]
  · intro i hwe
    constructor
    · intro ⟨j, hj1, hj9, hnz, heq⟩
      rw [wait_for_file, hwe]
      apply sizeLoop_stable_success
      refine Or.inr ⟨j - 1, by omega, ?_, ?_⟩
      · rw [show i + (j - 1) + 1 = i + j from by omega,
          show i + (j - 1) = i + j - 1 from by omega]
        exact heq
      · rw [show i + (j - 1) = i + j - 1 from by omega]
        rw [← heq]
        exact hnz
    · intro hall
      rw [wait_for_file, hwe]
      show sizeLoop sz 10 i 0 = _
      rw [sizeLoop_unstable sz 10 i 0 ?_]
      · rw [if_neg (by omega : ¬ (10 : Nat) = 0),
          show i + 10 - 1 = i + 9 from by omega]
      · intro j hj
        cases j with
        | zero =>
          intro hcon
          rw [if_pos rfl] at hcon
          exact hcon.1 hcon.2
        | succ j2 =>
          intro hcon
          rw [if_neg (by omega)] at hcon
          exact hall (j2 + 1) (by omega) (by omega) hcon

/-- Witness for C6 at a concrete stably-sized file. -/
theorem c6_witness :
    wait_for_file exAlways (fun _ => 7) 5 = WaitRes.success := by
  have h := (((c6_theorem exAlways (fun _ => 7) 5).2.1) 0 (by decide)).1
  exact h ⟨1, by omega, by omega, by decide, by decide⟩

/-! ## C5 helper lemmas -/

theorem mem_insertIfAbsent {x p : Str} {l : List Str} :
    p ∈ insertIfAbsent x l ↔ p ∈ l ∨ p = x := by
  unfold insertIfAbsent
  by_cases hx : x ∈ l
  · rw [if_pos hx]
    constructor
    · exact Or.inl
    · rintro (h | rfl)
      · exact h
      · exact hx
  · rw [if_neg hx]
    rw [List.mem_append, List.mem_singleton]

theorem nodup_insertIfAbsent {x : Str} {l : List Str} (h : l.Nodup) :
    (insertIfAbsent x l).Nodup := by
  unfold insertIfAbsent
  by_cases hx : x ∈ l
  · rw [if_pos hx]; exact h
  · rw [if_neg hx]
    simp [List.nodup_append, h, hx]

theorem mem_foldIns {α : Type} (g : α → Option Str) : ∀ (l : List α) (acc : List Str) (p : Str),
    p ∈ foldIns g l acc ↔ p ∈ acc ∨ ∃ x ∈ l, g x = some p := by
  intro l
  induction l with
  | nil => intro acc p; simp [foldIns]
  | cons a l2 ih =>
    intro acc p
    cases hga : g a with
    | none =>
      rw [show foldIns g (a :: l2) acc = foldIns g l2 acc from by
        simp only [foldIns, List.foldl_cons, hga]]
      rw [ih]
      constructor
      · rintro (h | ⟨x, hx, hgx⟩)
        · exact Or.inl h
        · exact Or.inr ⟨x, List.mem_cons_of_mem _ hx, hgx⟩
      · rintro (h | ⟨x, hx, hgx⟩)
        · exact Or.inl h
        · rcases List.mem_cons.mp hx with rfl | hx2
          · rw [hga] at hgx; exact absurd hgx (by simp)
          · exact Or.inr ⟨x, hx2, hgx⟩
    | some v =>
      rw [show foldIns g (a :: l2) acc = foldIns g l2 (insertIfAbsent v acc) from by
        simp only [foldIns, List.foldl_cons, hga]]
      rw [ih, mem_insertIfAbsent]
      constructor
      · rintro ((h | rfl) | ⟨x, hx, hgx⟩)
        · exact Or.inl h
        · exact Or.inr ⟨a, List.mem_cons_self _ _, hga⟩
        · exact Or.inr ⟨x, List.mem_cons_of_mem _ hx, hgx⟩
      · rintro (h | ⟨x, hx, hgx⟩)
        · exact Or.inl (Or.inl h)
        · rcases List.mem_cons.mp hx with rfl | hx2
          · rw [hga] at hgx
            exact Or.inl (Or.inr (Option.some.inj hgx).symm)
          · exact Or.inr ⟨x, hx2, hgx⟩

theorem nodup_foldIns {α : Type} (g : α → Option Str) : ∀ (l : List α) (acc : List Str),
    acc.Nodup → (foldIns g l acc).Nodup := by
  intro l
  induction l with
  | nil => intro acc h; exact h
  | cons a l2 ih =>
    intro acc h
    cases hga : g a with
    | none =>
      rw [show foldIns g (a :: l2) acc = foldIns g l2 acc from by
        simp only [foldIns, List.foldl_cons, hga]]
      exact ih acc h
    | some v =>
      rw [show foldIns g (a :: l2) acc = foldIns g l2 (insertIfAbsent v acc) from by
        simp only [foldIns, List.foldl_cons, hga]]
      exact ih _ (nodup_insertIfAbsent h)

/-! ## C5 -/

/-- C5 counterexample: with the working directory reachable through an alias
(resolve maps /t/img_out.png to /real/img_out.png and the file is visible
under both names), the declared candidate is stored canonicalized while the
scanned candidate is stored as enumerated: the result keeps two entries whose
canonical paths coincide, so duplicates across the two strategies do not
collapse under canonicalized-path identity. -/
theorem c5_counterexample :
    parse_saved_files fsAlias (str "") (str "/t") (str "img") =
      [str "/real/img_out.png", str "/t/img_out.png"] ∧
    fsAlias.resolve (str "/t/img_out.png") = fsAlias.resolve (str "/real/img_out.png") := by
  exact ⟨by decide, by decide⟩

/-- C5 amended: parse_saved_files returns a duplicate-free list whose members
are exactly the union of (1) the OUTPUT_FILE: declarations of output_log.txt
(when that log exists), canonicalized, existing and non-empty at check time,
and (2) the files under the working directory whose basename starts with the
original stem, existing and non-empty, kept under their as-enumerated names;
deduplication is by exact string identity of those stored names. -/
theorem c5_theorem (fs : FS) (output temp_dir original_filename : Str) :
    (parse_saved_files fs output temp_dir original_filename).Nodup ∧
    ∀ p, p ∈ parse_saved_files fs output temp_dir original_filename ↔
      ((fs.existsF (pyJoin temp_dir (str "output_log.txt")) = true ∧
        ∃ line ∈ fs.linesOf (pyJoin temp_dir (str "output_log.txt")),
          lineCand fs line = some p) ∨
       ∃ e ∈ fs.files, scanCand fs temp_dir original_filename e = some p) := by
  have hrep : parse_saved_files fs output temp_dir original_filename =
      foldIns (scanCand fs temp_dir original_filename) fs.files
        (if fs.existsF (pyJoin temp_dir (str "output_log.txt")) then
          foldIns (lineCand fs) (fs.linesOf (pyJoin temp_dir (str "output_log.txt"))) []
        else []) := rfl
  constructor
  · rw [hrep]
    apply nodup_foldIns
    split
    · exact nodup_foldIns _ _ _ List.nodup_nil
    · exact List.nodup_nil
  · intro p
    rw [hrep, mem_foldIns]
    by_cases hex : fs.existsF (pyJoin temp_dir (str "output_log.txt")) = true
    · rw [if_pos hex, mem_foldIns]
      simp only [List.not_mem_nil, false_or]
      constructor
      · rintro (h | h)
        · exact Or.inl ⟨hex, h⟩
        · exact Or.inr h
      · rintro (⟨_, h⟩ | h)
        · exact Or.inl h
        · exact Or.inr h
    · rw [if_neg hex]
      simp only [List.not_mem_nil, false_or]
      constructor
      · intro h; exact Or.inr h
      · rintro (⟨h1, _⟩ | h)
        · exact absurd h1 hex
        · exact h

/-! ## C7 helper lemmas -/

theorem create_zip_members_eq (fs : FS) (b : Str) : ∀ (paths seen : List Str),
    create_zip_members fs b paths seen =
      mapRel b (dedupFrom seen ((paths.map pyPathNorm).filter (fun q => fs.existsF q))) := by
  intro paths
  induction paths with
  | nil => intro seen; rfl
  | cons p rest ih =>
    intro seen
    have hstep : create_zip_members fs b (p :: rest) seen =
        (if fs.existsF (pyPathNorm p) = false then create_zip_members fs b rest seen
         else if pyPathNorm p ∈ seen then create_zip_members fs b rest seen
         else match relativeTo b (pyPathNorm p) with
           | none => none
           | some arc =>
             (create_zip_members fs b rest (pyPathNorm p :: seen)).map (arc :: ·)) := rfl
    rw [hstep]
    by_cases hex : fs.existsF (pyPathNorm p) = true
    · have hfil : ((p :: rest).map pyPathNorm).filter (fun q => fs.existsF q) =
          pyPathNorm p :: (rest.map pyPathNorm).filter (fun q => fs.existsF q) := by
        simp [List.map_cons, List.filter_cons, hex]
      rw [hfil]
      rw [if_neg (by rw [hex]; exact fun hc => Bool.noConfusion hc)]
      by_cases hseen : pyPathNorm p ∈ seen
      · rw [if_pos hseen]
        rw [show dedupFrom seen (pyPathNorm p ::
            (rest.map pyPathNorm).filter (fun q => fs.existsF q)) =
          dedupFrom seen ((rest.map pyPathNorm).filter (fun q => fs.existsF q)) from by
            rw [dedupFrom, if_pos hseen]]
        exact ih seen
      · rw [if_neg hseen]
        rw [show dedupFrom seen (pyPathNorm p ::
            (rest.map pyPathNorm).filter (fun q => fs.existsF q)) =
          pyPathNorm p :: dedupFrom (pyPathNorm p :: seen)
            ((rest.map pyPathNorm).filter (fun q => fs.existsF q)) from by
            rw [dedupFrom, if_neg hseen]]
        rw [show mapRel b (pyPathNorm p :: dedupFrom (pyPathNorm p :: seen)
            ((rest.map pyPathNorm).filter (fun q => fs.existsF q))) =
          (match relativeTo b (pyPathNorm p) with
           | none => none
           | some a => (mapRel b (dedupFrom (pyPathNorm p :: seen)
               ((rest.map pyPathNorm).filter (fun q => fs.existsF q)))).map (a :: ·)) from rfl]
        rw [ih (pyPathNorm p :: seen)]
    · rw [Bool.not_eq_true] at hex
      have hfil : ((p :: rest).map pyPathNorm).filter (fun q => fs.existsF q) =
          (rest.map pyPathNorm).filter (fun q => fs.existsF q) := by
        simp [List.map_cons, List.filter_cons, hex]
      rw [hfil, if_pos hex]
      exact ih seen

/-! ## C7 -/

/-- C7 counterexample: a non-empty path list whose single entry is missing
from disk still produces an archive: every entry is skipped, the member list
is empty, and because the archive file exists after writing the call reports
success, yielding a zero-member archive. -/
theorem c7_counterexample :
    create_zip_file fsZipOnly [str "/t/ghost.png"] (str "/t/results.zip") =
      some (str "/t/results.zip") ∧
    create_zip_members fsZipOnly (str "/t") [str "/t/ghost.png"] [] = some [] := by
  exact ⟨by decide, by decide⟩

/-- C7 amended: create_zip_file fails on an empty path list and whenever the
archive file is missing from disk after writing; its member list is exactly
the existing paths, deduplicated by their normalized string with first
occurrences kept, relativized against the archive parent (failing if one
falls outside it); a non-empty list whose entries are all skipped still
succeeds, producing a zero-member archive. -/
theorem c7_theorem (fs : FS) (paths : List Str) (zf : Str) :
    (paths = [] → create_zip_file fs paths zf = none) ∧
    (fs.existsF (pyPathNorm zf) = false → create_zip_file fs paths zf = none) ∧
    (create_zip_members fs (parentOf (pyPathNorm zf)) paths [] =
      mapRel (parentOf (pyPathNorm zf))
        (dedupFrom [] ((paths.map pyPathNorm).filter (fun q => fs.existsF q)))) ∧
    (paths ≠ [] → ∀ ms,
      create_zip_members fs (parentOf (pyPathNorm zf)) paths [] = some ms →
      fs.existsF (pyPathNorm zf) = true →
      create_zip_file fs paths zf = some (pyPathNorm zf)) := by
  refine ⟨?_, ?_, create_zip_members_eq fs _ paths [], ?_⟩
  · intro h
    subst h
    rfl
  · intro hex
    rw [create_zip_file]
    split
    · rfl
    · split
      · rfl
      · rw [if_neg (by rw [hex]; exact fun hc => Bool.noConfusion hc)]
  · intro hne ms hms hex
    rw [create_zip_file]
    rw [if_neg (by simpa using hne)]
    rw [hms, if_pos hex]

/-- Witness for C7 at a concrete list with a missing entry and a duplicate:
the archive succeeds with exactly the existing entries as members. -/
theorem c7_witness :
    create_zip_file aggBatch
      [str "/t/a_out.png", str "/t/ghost.png", str "/t/c_out.png", str "/t/a_out.png"]
      (str "/t/results.zip") = some (str "/t/results.zip") :=
  (c7_theorem aggBatch
      [str "/t/a_out.png", str "/t/ghost.png", str "/t/c_out.png", str "/t/a_out.png"]
      (str "/t/results.zip")).2.2.2 (by decide)
    [str "a_out.png", str "c_out.png"] (by decide) (by decide)

/-! ## C1 -/

/-- C1 counterexample: when the second file's upload persistence raises, the
exception is not caught and not keyed by filename: the whole batch aborts
with the raised exception, even though the third file would have produced an
output, so not every per-file exception is isolated. -/
theorem c1_counterexample :
    execute_image_macro (str "/t") [jobA, jobBsave, jobC] aggBatch =
      ExecResult.raised (str "disk full") ∧
    jobOutputs (str "/t") jobC = [str "/t/c_out.png"] := by
  exact ⟨by decide, by decide⟩

/-- C1 amended: exceptions raised inside the per-file processing block
(script preparation, engine invocation) are caught, formatted into an error
log entry keyed by the sanitized filename, and do not abort the loop, so
when every upload persists successfully the loop runs to completion and
returns the concatenated per-file outputs together with one error entry per
engine-failing file; an exception from persisting the upload itself occurs
before the try block and aborts the batch. -/
theorem c1_theorem (temp_dir : Str) : ∀ (jobs : List JobSpec),
    (∀ j ∈ jobs, j.saveErr = none) →
    runJobs temp_dir jobs =
      Except.ok ((jobs.map (jobOutputs temp_dir)).flatten, jobs.filterMap jobErrEntry) := by
  intro jobs
  induction jobs with
  | nil => intro _; rfl
  | cons j rest ih =>
    intro h
    have hj : j.saveErr = none := h j (List.mem_cons_self _ _)
    have hrest := ih (fun j2 hj2 => h j2 (List.mem_cons_of_mem _ hj2))
    obtain ⟨fn, se, ee, rr, lr, fsA⟩ := j
    simp only at hj
    subst hj
    simp only [runJobs]
    rw [hrest]
    cases ee with
    | some e => simp [jobOutputs, jobErrEntry]
    | none => simp [jobOutputs, jobErrEntry]

/-- Witness for C1 at the three-file batch whose second file's engine
invocation raises: files one and three still contribute their outputs and
exactly one error entry names the second file. -/
theorem c1_witness :
    runJobs (str "/t") [jobA, jobBeng, jobC] =
      Except.ok ([str "/t/a_out.png", str "/t/c_out.png"],
        [str "Error processing b.png: Java exception: null"]) := by
  have h := c1_theorem (str "/t") [jobA, jobBeng, jobC] (by decide)
  exact h.trans (by rfl)

/-! ## C2 -/

/-- C2: after the per-file loop completes, a non-empty collected output list
leads to exactly one archive built from it, whose path is returned together
with the per-file error log (provided the write is observed on disk); an
empty collected output list fails the whole batch with the distinct
"No output files were generated." HTTP failure regardless of the error log. -/
theorem c2_theorem (temp_dir : Str) (jobs : List JobSpec) (aggFS : FS)
    (outs logs : List Str) (h : runJobs temp_dir jobs = Except.ok (outs, logs)) :
    (outs = [] → execute_image_macro temp_dir jobs aggFS =
      ExecResult.httpError (str "No output files were generated.")) ∧
    (∀ zp, create_zip_file aggFS outs (pyJoin temp_dir (str "results.zip")) = some zp →
      zp ≠ [] → aggFS.existsF zp = true →
      execute_image_macro temp_dir jobs aggFS = ExecResult.ok zp logs) ∧
    str "No output files were generated." ≠ str "Failed to create zip file." := by
  refine ⟨?_, ?_, by decide⟩
  · intro ho
    subst ho
    simp only [ execute_image_macro]
    rw [h]
    rfl
  · intro zp hz hne hex
    have houts : outs ≠ [] := by
      intro hcc
      subst hcc
      rw [show create_zip_file aggFS [] (pyJoin temp_dir (str "results.zip")) = none from rfl]
        at hz
      exact Option.noConfusion hz
    simp only [ execute_image_macro]
    rw [h]
    show (if outs.isEmpty then ExecResult.httpError (str "No output files were generated.")
      else match create_zip_file aggFS outs (pyJoin temp_dir (str "results.zip")) with
        | some zp2 =>
          if zp2 ≠ [] ∧ aggFS.existsF zp2 then ExecResult.ok zp2 logs
          else ExecResult.httpError (str "Failed to create zip file.")
        | none => ExecResult.httpError (str "Failed to create zip file.")) = ExecResult.ok zp logs
    rw [if_neg (by simpa using houts)]
    rw [hz]
    show (if zp ≠ [] ∧ aggFS.existsF zp then ExecResult.ok zp logs
      else ExecResult.httpError (str "Failed to create zip file.")) = ExecResult.ok zp logs
    rw [if_pos ⟨hne, by rw [hex]⟩]

/-- Witness for C2 at a one-file batch whose output and archive are on
disk. -/
theorem c2_witness :
    execute_image_macro (str "/t") [jobA] aggBatch =
      ExecResult.ok (str "/t/results.zip") [] :=
  (c2_theorem (str "/t") [jobA] aggBatch [str "/t/a_out.png"] [] (by rfl)).2.1
    (str "/t/results.zip") (by decide) (by decide) (by decide)
